import Mathlib

/-!
Verification of the MaxPre session-protocol wrapper (`src/lib.rs`, `src/opt.rs`)
against its natural-language specification.

The native preprocessing engine (built from C++ by `build.rs`) is outside the
repository; it is modelled abstractly, following the spec's engine contract
(§6): the engine state carries the flat post-preprocessing clause/weight table,
the original-variable count and the reconstruction trace, and the read-back
calls of the C API are read-only queries of that state.  The Rust wrapper code
is embedded function by function.
-/

namespace Maxpre

/-! ## Literal codec

Modelled from the spec: `rustsat::types::Lit` and its `to_ipasir` /
`from_ipasir` conversions live in the external `rustsat` crate, not in this
repository.  Spec §4.1: a literal is a (variable, polarity) pair; the encoding
is a signed non-zero integer whose sign carries the polarity and whose
magnitude carries the variable id, magnitudes starting at 1; `0` is never a
literal.  `vidx` is the 0-based variable index (variable `vidx + 1` in the
1-based protocol numbering). -/

structure LitT where
  vidx : Nat
  neg : Bool
deriving DecidableEq, Repr, Inhabited

/-- Encoding `Lit::to_ipasir`: sign carries polarity, magnitude is `vidx + 1`. -/
def toIpasir (l : LitT) : Int :=
  if l.neg then -((l.vidx : Int) + 1) else (l.vidx : Int) + 1

/-- Decoding `Lit::from_ipasir`: fails exactly on `0`, otherwise magnitude and sign. -/
def fromIpasir (x : Int) : Option LitT :=
  if x = 0 then none else some ⟨x.natAbs - 1, decide (x < 0)⟩

/-- The variable of a literal (`Lit::var`), as its 0-based index. -/
def LitT.var (l : LitT) : Nat := l.vidx

/-- A clause is a sequence of literals (`rustsat::types::Clause`). -/
abbrev ClauseT := List LitT

/-- A CNF is a sequence of clauses (`rustsat::instances::CNF`). -/
abbrev CNFT := List ClauseT

/-! ## Init Builder (`MaxPre::new`)

`MaxPre::new` makes a sequence of calls into the engine: `cmaxpre_init_start`
with the computed top weight, `cmaxpre_init_add_lit` / `cmaxpre_init_add_weight`
for the streamed clauses and weights, and `cmaxpre_init_finalize`.  The engine
is opaque, so the embedding records the call trace. -/

inductive InitEvent where
  | start (top : Nat) (inproc : Bool)
  | addLit (l : Int)
  | addWeight (w : Nat)
  | finalizeEv
deriving DecidableEq, Repr

/-- The top-weight fold of `MaxPre::new` (lines 35–38 of `lib.rs`):
`top = softs.iter().fold(1, |top, softs| softs.iter().fold(top, |top, (_, w)| top + w))`.
A soft-clause set (`RsHashMap<Clause, usize>`) is embedded as its iteration
sequence of (clause, weight) pairs. -/
def topWeight (softs : List (List (ClauseT × Nat))) : Nat :=
  softs.foldl (fun top s => s.foldl (fun top p => top + p.2) top) 1

/-- The trace of one clause streamed literal-by-literal followed by the `0`
terminator (`cl.into_iter().for_each(add_lit); add_lit(0)`). -/
def emitClause (t : List InitEvent) (cl : ClauseT) : List InitEvent :=
  cl.foldl (fun t l => t ++ [InitEvent.addLit (toIpasir l)]) t ++ [InitEvent.addLit 0]

/-- The trace of one soft clause of objective `idx`: `idx` zero weights for
the previous objectives, the real weight, then the clause (lines 47–56). -/
def emitSoft (idx : Nat) (t : List InitEvent) (cw : ClauseT × Nat) : List InitEvent :=
  emitClause
    (((List.range idx).foldl (fun t _ => t ++ [InitEvent.addWeight 0]) t)
      ++ [InitEvent.addWeight cw.2])
    cw.1

/-- The full engine-call trace of `MaxPre::new hards softs inprocessing`
(lines 34–59): open the session with the top weight, stream the hard clauses,
stream the soft clauses objective by objective, finalize. -/
def initTrace (hards : CNFT) (softs : List (List (ClauseT × Nat))) (inproc : Bool) :
    List InitEvent :=
  ((softs.enum.foldl (fun t p => p.2.foldl (emitSoft p.1) t)
      (hards.foldl emitClause [InitEvent.start (topWeight softs) inproc]))
    ++ [InitEvent.finalizeEv])

/-- Total weight over all objectives and all soft clauses. -/
def totalWeight (softs : List (List (ClauseT × Nat))) : Nat :=
  (softs.map (fun s => (s.map Prod.snd).sum)).sum

/-- The per-soft-clause trace, in closed form. -/
def softEvents (idx : Nat) (cw : ClauseT × Nat) : List InitEvent :=
  List.replicate idx (InitEvent.addWeight 0) ++ [InitEvent.addWeight cw.2]
    ++ (cw.1.map (fun l => InitEvent.addLit (toIpasir l)) ++ [InitEvent.addLit 0])

/-- The per-hard-clause trace, in closed form. -/
def hardEvents (cl : ClauseT) : List InitEvent :=
  cl.map (fun l => InitEvent.addLit (toIpasir l)) ++ [InitEvent.addLit 0]

/-! ## Options configuration (`MaxPre::set_options`, lines 259–287)

`set_options` makes one engine call per `Some` field, in source order; the
embedding records the trace of setter calls. -/

inductive OptEvent where
  | setBveGateExtraction (b : Bool)
  | setLabelMatching (b : Bool)
  | setSkipTechnique (v : Int)
  | setBveSortMaxFirst (b : Bool)
  | setBveLocalGrowLimit (v : Int)
  | setBveGlobalGrowLimit (v : Int)
  | setMaxBbtmsVars (v : Int)
  | setHardenInModelSearch (b : Bool)
  | setModelSearchIterLimit (v : Int)
deriving DecidableEq, Repr

/-- The `Options` struct (lines 330–340): nine independently optional knobs. -/
structure OptionsT where
  bve_gate_extraction : Option Bool := none
  label_matching : Option Bool := none
  skip_technique : Option Int := none
  bve_sort_max_first : Option Bool := none
  bve_local_grow_limit : Option Int := none
  bve_global_grow_limit : Option Int := none
  max_bbtms_vars : Option Int := none
  harden_in_model_search : Option Bool := none
  model_search_iter_limits : Option Int := none
deriving DecidableEq, Repr

/-- One `if let Some(val) = ... { engine call }` block. -/
def optCall {α : Type} (v : Option α) (f : α → OptEvent) : List OptEvent :=
  match v with
  | some x => [f x]
  | none => []

/-- The engine-call trace of `MaxPre::set_options` (lines 259–287), with the
field each block reads and the setter it calls taken verbatim from the source:
the first block reads `opts.bve_sort_max_first` and calls the
gate-extraction setter, and no block reads `opts.bve_gate_extraction`. -/
def setOptionsTrace (opts : OptionsT) : List OptEvent :=
  optCall opts.bve_sort_max_first OptEvent.setBveGateExtraction
    ++ optCall opts.label_matching OptEvent.setLabelMatching
    ++ optCall opts.skip_technique OptEvent.setSkipTechnique
    ++ optCall opts.bve_sort_max_first OptEvent.setBveSortMaxFirst
    ++ optCall opts.bve_local_grow_limit OptEvent.setBveLocalGrowLimit
    ++ optCall opts.bve_global_grow_limit OptEvent.setBveGlobalGrowLimit
    ++ optCall opts.max_bbtms_vars OptEvent.setMaxBbtmsVars
    ++ optCall opts.harden_in_model_search OptEvent.setHardenInModelSearch
    ++ optCall opts.model_search_iter_limits OptEvent.setModelSearchIterLimit

/-! ## Engine state and the Instance Extractor (`MaxPre::prepro_instance`)

Modelled from the spec: the engine's internals are outside the repository.
Following §4.5/§6, after preprocessing the engine holds a flat table of
simplified clauses — per clause a `0`-padded literal stream
(`cmaxpre_get_prepro_lit` returns `0` at and past the terminator) and one
weight per objective slot (`cmaxpre_get_prepro_weight`) — plus the session's
top weight.  The read-back calls are read-only snapshots (§4.5, §4.6), so each
getter returns its value together with the unchanged state.  The wrapper-side
`n_obj` field of the `MaxPre` struct is carried alongside. -/

structure PreproRow where
  lits : List Int
  weights : List Nat
deriving DecidableEq, Repr, Inhabited

structure PreproState where
  top : Nat
  nObj : Nat
  clauses : List PreproRow
deriving DecidableEq, Repr, Inhabited

/-- Engine call `cmaxpre_get_n_prepro_clauses` (read-only). -/
def getNPreproClauses (s : PreproState) : Nat × PreproState :=
  (s.clauses.length, s)

/-- Engine call `cmaxpre_get_top_weight` (read-only). -/
def getTopWeight (s : PreproState) : Nat × PreproState :=
  (s.top, s)

/-- Engine call `cmaxpre_get_prepro_lit` (read-only): the literal stream of clause `cl`,
`0` at and past the terminator. -/
def getPreproLit (s : PreproState) (cl litIdx : Nat) : Int × PreproState :=
  ((s.clauses.getD cl default).lits.getD litIdx 0, s)

/-- Engine call `cmaxpre_get_prepro_weight` (read-only). -/
def getPreproWeight (s : PreproState) (cl obj : Nat) : Nat × PreproState :=
  ((s.clauses.getD cl default).weights.getD obj 0, s)

/-- A soft-clause map, `RsHashMap<Clause, usize>` modelled by its lookup
function. -/
def HMap := ClauseT → Option Nat

/-- Empty map `Default::default()` for a soft-clause map: the empty map. -/
def emptyHM : HMap := fun _ => none

/-- Map insertion `RsHashMap::insert`. -/
def hmInsert (m : HMap) (k : ClauseT) (v : Nat) : HMap :=
  fun k2 => if k2 = k then some v else m k2

/-- Vector growth `Vec::resize(n, Default::default())` on the objective vector. -/
def resizeTo (l : List HMap) (n : Nat) : List HMap :=
  if l.length < n then l ++ List.replicate (n - l.length) emptyHM else l.take n

/-- The soft-clause map of objective `obj` (empty if the vector was never
resized up to `obj`). -/
def objMapOf (softs : List HMap) (obj : Nat) : HMap :=
  softs.getD obj emptyHM

/-- The literal-reading `loop` of `prepro_instance` (lines 110–118): read
`cmaxpre_get_prepro_lit` at increasing indices, stop at `0`, decode and push
every other literal.  The `loop` is unbounded in the source; it terminates
because the modelled stream is `0` from index `lits.length` on, so the fuel
`lits.length + 1` is exactly the bound the engine state imposes.
`(fromIpasir lit).toList` is `clause.add(Lit::from_ipasir(lit).unwrap())`:
the `none` branch is unreachable since `lit ≠ 0`. -/
def readClauseAux (cl : Nat) : PreproState → Nat → Nat → ClauseT → ClauseT × PreproState
  | s, 0, _, acc => (acc, s)
  | s, fuel + 1, i, acc =>
    let (lit, s1) := getPreproLit s cl i
    if lit = 0 then (acc, s1)
    else readClauseAux cl s1 fuel (i + 1) (acc ++ (fromIpasir lit).toList)

/-- Reading one clause from the engine table starting at literal index 0. -/
def readClause (s : PreproState) (cl : Nat) : ClauseT × PreproState :=
  readClauseAux cl s ((s.clauses.getD cl default).lits.length + 1) 0 []

/-- Closed form of the clause read back from a `0`-padded literal stream. -/
def renderLits (lits : List Int) : ClauseT :=
  (lits.takeWhile (fun l => l ≠ 0)).filterMap fromIpasir

/-- The clause rendered from a table row. -/
def renderRow (r : PreproRow) : ClauseT :=
  renderLits r.lits

/-- The weight of a table row under objective `obj`. -/
def rowWeight (r : PreproRow) (obj : Nat) : Nat :=
  r.weights.getD obj 0

/-- The body of the per-objective weight loop (lines 120–133), pure form: if
the clause's weight under `obj` differs from the top weight, clear the
hard flag, grow the objective vector if needed and record the soft clause. -/
def weightStep (top : Nat) (r : PreproRow) (clause : ClauseT)
    (p : Bool × List HMap) (obj : Nat) : Bool × List HMap :=
  let w := rowWeight r obj
  if w ≠ top then
    let sof := if p.2.length < obj + 1 then resizeTo p.2 (obj + 1) else p.2
    (false, sof.set obj (hmInsert (objMapOf sof obj) clause w))
  else p

/-- Processing of one table row by `prepro_instance` (loop body, lines
107–138), pure form: render the clause, run the weight loop over all
objective indices, then append to the hard clauses iff the flag survived. -/
def processRow (top nObj : Nat) (acc : CNFT × List HMap) (r : PreproRow) :
    CNFT × List HMap :=
  let clause := renderRow r
  let res := (List.range nObj).foldl (weightStep top r clause) (true, acc.2)
  if res.1 then (acc.1 ++ [clause], res.2) else (acc.1, res.2)

/-- The extractor `MaxPre::prepro_instance` (lines 102–140), pure form: fold the row
processing over the engine's clause table. -/
def preproInstance (s : PreproState) : CNFT × List HMap :=
  s.clauses.foldl (processRow s.top s.nObj) ([], [])

/-- The body of the per-objective weight loop, threading the engine state
through the `cmaxpre_get_prepro_weight` call as the source does. -/
def weightStepSt (top cl : Nat) (clause : ClauseT)
    (acc : (Bool × List HMap) × PreproState) (obj : Nat) :
    (Bool × List HMap) × PreproState :=
  let w := (getPreproWeight acc.2 cl obj).1
  let s1 := (getPreproWeight acc.2 cl obj).2
  let p := acc.1
  if w ≠ top then
    let sof := if p.2.length < obj + 1 then resizeTo p.2 (obj + 1) else p.2
    ((false, sof.set obj (hmInsert (objMapOf sof obj) clause w)), s1)
  else (p, s1)

/-- Processing of one table row, threading the engine state through every
engine call (`cmaxpre_get_prepro_lit` loop, then the weight loop). -/
def rowStepSt (top : Nat) (acc : (CNFT × List HMap) × PreproState)
    (clIdx : Nat) : (CNFT × List HMap) × PreproState :=
  let clause := (readClause acc.2 clIdx).1
  let s1 := (readClause acc.2 clIdx).2
  let res :=
    (List.range s1.nObj).foldl (weightStepSt top clIdx clause) ((true, acc.1.2), s1)
  if res.1.1 then ((acc.1.1 ++ [clause], res.1.2), res.2)
  else ((acc.1.1, res.1.2), res.2)

/-- The extractor `MaxPre::prepro_instance` with every engine call threading the state:
read the clause count, read the top weight, then process each clause index. -/
def preproInstanceSt (s : PreproState) : (CNFT × List HMap) × PreproState :=
  let nCls := (getNPreproClauses s).1
  let s1 := (getNPreproClauses s).2
  let top := (getTopWeight s1).1
  let s2 := (getTopWeight s1).2
  (List.range nCls).foldl (rowStepSt top) (([], []), s2)

/-- The hard/soft discriminator of the extraction loop: the clause's weight
equals the top weight under every objective index. -/
def allTopB (top nObj : Nat) (r : PreproRow) : Bool :=
  (List.range nObj).all (fun obj => rowWeight r obj == top)

/-- A small concrete engine table: one hard row, one row soft only under
objective 0, one row soft under both objectives. -/
def sampleExtractionState : PreproState :=
  { top := 9, nObj := 2,
    clauses := [⟨[1, 0], [9, 9]⟩, ⟨[2, 0], [3, 9]⟩, ⟨[-1, 3, 0], [4, 5]⟩] }

/-- The method `PreproOpt::prepro_instance` from `src/opt.rs` (lines 43–55): extract,
take `objs.into_iter().last()`; when the objective list is empty the method
hits `panic!()`, modelled as `none`; otherwise the optimization instance is
composed from the hard clauses and the last objective. -/
def preproOptInstance (s : PreproState) : Option (CNFT × HMap) :=
  match (preproInstance s).2.getLast? with
  | some o => some ((preproInstance s).1, o)
  | none => none

/-- A single-objective session whose only clause carries the top weight. -/
def sampleAllHardState : PreproState :=
  { top := 5, nObj := 1, clauses := [⟨[1, 2, 0], [5]⟩] }

/-- The method `MaxPre::add_var` (lines 195–201): the engine's allocation call returns
`v`; `0` signals rejection (`Err`), otherwise the decoded variable is
returned.  `.map LitT.var` stands for `from_ipasir(v).unwrap().var()`; the
`unwrap` cannot hit `none` since `v ≠ 0` on that branch. -/
def addVar (v : Int) : Option Nat :=
  if v = 0 then none else (fromIpasir v).map LitT.var

/-! ## Reconstruction (`MaxPre::reconstruct`) -/

/-- Modelled from the spec: the engine side of reconstruction (§4.7/§6) is
outside the repository.  `origVars` is the value
`cmaxpre_get_original_variables` reports; `reconVal` is the per-literal truth
value `cmaxpre_reconstructed_val` reports after `cmaxpre_reconstruct` ran. -/
structure ReconState where
  origVars : Int
  reconVal : Int → Int

/-- The method `MaxPre::max_orig_var` (lines 170–175): decode the engine value with an
`unwrap` (modelled by `Option`), then take the variable. -/
def maxOrigVar (s : ReconState) : Option Nat :=
  (fromIpasir s.origVars).map LitT.var

/-- The Rust half-open integer range `lo..hi` as a list. -/
def intRange (lo hi : Int) : List Int :=
  (List.range (hi - lo).toNat).map (fun k => lo + (k : Int))

/-- The method `MaxPre::reconstruct` (lines 177–192): stream the assignment into the
engine, invoke reconstruction, then emit one literal per index of the
half-open range `1..max_var.pos_lit().to_ipasir()`, positive iff the engine's
reconstructed value is positive.  The streamed input `sol` only reaches the
engine; the output is read from `reconVal`.  `filterMap` stands for the
decode-`unwrap`, which cannot fail since every queried index is non-zero. -/
def reconstruct (s : ReconState) (sol : List LitT) : Option (List LitT) :=
  (fromIpasir s.origVars).map (fun mv =>
    (intRange 1 (toIpasir ⟨mv.var, false⟩)).filterMap (fun l =>
      if s.reconVal l > 0 then fromIpasir l else fromIpasir (-l)))

/-! ## Signature (`MaxPre::signature`) -/

/-- A UTF-8 continuation byte. -/
def contB (c : Nat) : Bool := 0x80 ≤ c && c ≤ 0xBF

/-- Modelled from the spec: the UTF-8 validation performed by
`CStr::to_str` / `core::str::from_utf8` (Rust standard library, external to
this repository), per RFC 3629: ASCII; 2-byte `C2`–`DF`; 3-byte `E0`,
`E1`–`EC`, `ED`, `EE`–`EF` with their continuation ranges; 4-byte `F0`,
`F1`–`F3`, `F4`. -/
def utf8Valid : List Nat → Bool
  | [] => true
  | b :: t =>
    if b ≤ 0x7F then utf8Valid t
    else if 0xC2 ≤ b && b ≤ 0xDF then
      match t with
      | c1 :: t2 => contB c1 && utf8Valid t2
      | [] => false
    else if b = 0xE0 then
      match t with
      | c1 :: c2 :: t2 => (0xA0 ≤ c1 && c1 ≤ 0xBF) && contB c2 && utf8Valid t2
      | _ => false
    else if (0xE1 ≤ b && b ≤ 0xEC) || b = 0xEE || b = 0xEF then
      match t with
      | c1 :: c2 :: t2 => contB c1 && contB c2 && utf8Valid t2
      | _ => false
    else if b = 0xED then
      match t with
      | c1 :: c2 :: t2 => (0x80 ≤ c1 && c1 ≤ 0x9F) && contB c2 && utf8Valid t2
      | _ => false
    else if b = 0xF0 then
      match t with
      | c1 :: c2 :: c3 :: t2 =>
        (0x90 ≤ c1 && c1 ≤ 0xBF) && contB c2 && contB c3 && utf8Valid t2
      | _ => false
    else if 0xF1 ≤ b && b ≤ 0xF3 then
      match t with
      | c1 :: c2 :: c3 :: t2 => contB c1 && contB c2 && contB c3 && utf8Valid t2
      | _ => false
    else if b = 0xF4 then
      match t with
      | c1 :: c2 :: c3 :: t2 =>
        (0x80 ≤ c1 && c1 ≤ 0x8F) && contB c2 && contB c3 && utf8Valid t2
      | _ => false
    else false

/-- The method `MaxPre::signature` (lines 25–31): `CStr::to_str` validates the engine's
identity bytes as UTF-8 and on success returns a view of the same bytes;
`.expect(...)` aborts on failure, modelled as `none`. -/
def signature (raw : List Nat) : Option (List Nat) :=
  if utf8Valid raw then some raw else none

/-! ## Theorems -/

/-! ### Helper lemmas about the traces -/

theorem foldl_accum_append {α E : Type} (f : α → List E) :
    ∀ (l : List α) (t : List E),
      l.foldl (fun t x => t ++ f x) t = t ++ l.flatMap f := by
  intro l
  induction l with
  | nil => intro t; simp
  | cons x xs ih => intro t; simp [List.foldl_cons, ih, List.flatMap_cons]

theorem foldl_add_snd (l : List (ClauseT × Nat)) :
    ∀ t : Nat, l.foldl (fun top p => top + p.2) t = t + (l.map Prod.snd).sum := by
  induction l with
  | nil => intro t; simp
  | cons p ps ih => intro t; simp [List.foldl_cons, ih]; omega

theorem topWeight_fold (softs : List (List (ClauseT × Nat))) :
    ∀ t : Nat,
      softs.foldl (fun top s => s.foldl (fun top p => top + p.2) top) t =
        t + totalWeight softs := by
  induction softs with
  | nil => intro t; simp [totalWeight]
  | cons s ss ih =>
    intro t
    simp only [List.foldl_cons]
    rw [foldl_add_snd, ih]
    simp [totalWeight]
    omega

theorem topWeight_eq (softs : List (List (ClauseT × Nat))) :
    topWeight softs = 1 + totalWeight softs := topWeight_fold softs 1

theorem flatMap_single {α E : Type} (f : α → E) (l : List α) :
    l.flatMap (fun x => [f x]) = l.map f := by
  induction l with
  | nil => rfl
  | cons x xs ih => simp [List.flatMap_cons, ih]

theorem emitClause_eq (t : List InitEvent) (cl : ClauseT) :
    emitClause t cl =
      t ++ (cl.map (fun l => InitEvent.addLit (toIpasir l)) ++ [InitEvent.addLit 0]) := by
  unfold emitClause
  have h :
      cl.foldl (fun t l => t ++ [InitEvent.addLit (toIpasir l)]) t =
        t ++ cl.flatMap (fun l => [InitEvent.addLit (toIpasir l)]) :=
    foldl_accum_append _ cl t
  rw [h, flatMap_single]
  simp

theorem foldl_replicate (e : InitEvent) :
    ∀ (n : Nat) (t : List InitEvent),
      (List.range n).foldl (fun t _ => t ++ [e]) t = t ++ List.replicate n e := by
  intro n
  induction n with
  | zero => intro t; simp
  | succ m ih =>
    intro t
    rw [List.range_succ, List.foldl_append]
    simp [ih, List.replicate_succ']

theorem emitSoft_eq (idx : Nat) (t : List InitEvent) (cw : ClauseT × Nat) :
    emitSoft idx t cw = t ++ softEvents idx cw := by
  unfold emitSoft softEvents
  rw [emitClause_eq, foldl_replicate]
  simp

theorem foldl_emitClause (hards : CNFT) :
    ∀ t : List InitEvent,
      hards.foldl emitClause t = t ++ (hards : List ClauseT).flatMap hardEvents := by
  induction hards with
  | nil => intro t; simp [CNFT]
  | cons c cs ih =>
    intro t
    have : (c :: cs : List ClauseT).foldl emitClause t = cs.foldl emitClause (emitClause t c) :=
      rfl
    rw [this, ih, emitClause_eq]
    simp [hardEvents, List.flatMap_cons]

theorem foldl_emitSoft (idx : Nat) (s : List (ClauseT × Nat)) :
    ∀ t : List InitEvent,
      s.foldl (emitSoft idx) t = t ++ s.flatMap (softEvents idx) := by
  induction s with
  | nil => intro t; simp
  | cons cw cws ih =>
    intro t
    rw [List.foldl_cons, ih, emitSoft_eq]
    simp [List.flatMap_cons]

theorem foldl_objectives (softs : List (List (ClauseT × Nat))) :
    ∀ (k : Nat) (t : List InitEvent),
      (softs.enumFrom k).foldl (fun t p => p.2.foldl (emitSoft p.1) t) t =
        t ++ (softs.enumFrom k).flatMap (fun p => p.2.flatMap (softEvents p.1)) := by
  induction softs with
  | nil => intro k t; simp
  | cons s ss ih =>
    intro k t
    simp only [List.enumFrom_cons, List.foldl_cons, List.flatMap_cons]
    rw [foldl_emitSoft, ih]
    simp

theorem readClauseAux_eq (cl : Nat) (s : PreproState) :
    ∀ (fuel i : Nat) (acc : ClauseT),
      (s.clauses.getD cl default).lits.length ≤ i + fuel →
        readClauseAux cl s fuel i acc =
          (acc ++ renderLits ((s.clauses.getD cl default).lits.drop i), s) := by
  intro fuel
  induction fuel with
  | zero =>
    intro i acc hle
    rw [List.drop_eq_nil_of_le (by omega)]
    simp [readClauseAux, renderLits]
  | succ m ih =>
    intro i acc hle
    set L := (s.clauses.getD cl default).lits with hL
    by_cases hi : i < L.length
    · have hdrop : L.drop i = L[i] :: L.drop (i + 1) := List.drop_eq_getElem_cons hi
      have hgetD : L.getD i 0 = L[i] := by
        rw [List.getD_eq_getElem?_getD, List.getElem?_eq_getElem hi]
        rfl
      by_cases h0 : L[i] = (0 : Int)
      · rw [readClauseAux]
        simp only [getPreproLit, ← hL, hgetD, h0, if_pos rfl]
        rw [hdrop, h0]
        simp [renderLits]
      · rw [readClauseAux]
        simp only [getPreproLit, ← hL, hgetD, if_neg h0]
        rw [ih (i + 1) (acc ++ (fromIpasir L[i]).toList) (by omega)]
        have hfrom : ∃ l, fromIpasir L[i] = some l := ⟨_, by rw [fromIpasir, if_neg h0]⟩
        obtain ⟨l, hl⟩ := hfrom
        have hrender : renderLits (L.drop i) = l :: renderLits (L.drop (i + 1)) := by
          rw [hdrop]
          unfold renderLits
          rw [List.takeWhile_cons]
          rw [if_pos (by simp [h0]), List.filterMap_cons, hl]
        rw [hrender, hl]
        simp
    · rw [List.drop_eq_nil_of_le (by omega)]
      rw [readClauseAux]
      have hgetD : L.getD i 0 = 0 := by
        rw [List.getD_eq_getElem?_getD, List.getElem?_eq_none (by omega)]
        rfl
      simp only [getPreproLit, ← hL, hgetD, if_pos rfl]
      simp [renderLits]

theorem readClause_eq (s : PreproState) (cl : Nat) :
    readClause s cl = (renderRow (s.clauses.getD cl default), s) := by
  rw [readClause, readClauseAux_eq cl s _ 0 [] (by omega)]
  simp [renderRow]

theorem weightStepSt_eq (top cl : Nat) (clause : ClauseT) (s : PreproState)
    (p : Bool × List HMap) (obj : Nat) :
    weightStepSt top cl clause (p, s) obj =
      (weightStep top (s.clauses.getD cl default) clause p obj, s) := by
  simp only [weightStepSt, weightStep, getPreproWeight, rowWeight]
  split <;> rfl

theorem weightLoopSt_eq (top cl : Nat) (clause : ClauseT) (s : PreproState)
    (L : List Nat) :
    ∀ p : Bool × List HMap,
      L.foldl (weightStepSt top cl clause) (p, s) =
        (L.foldl (weightStep top (s.clauses.getD cl default) clause) p, s) := by
  induction L with
  | nil => intro p; rfl
  | cons o L2 ih =>
    intro p
    rw [List.foldl_cons, weightStepSt_eq, ih, List.foldl_cons]

theorem rowStepSt_eq (top : Nat) (s : PreproState) (acc : CNFT × List HMap)
    (clIdx : Nat) :
    rowStepSt top (acc, s) clIdx =
      (processRow top s.nObj acc (s.clauses.getD clIdx default), s) := by
  unfold rowStepSt
  simp only [readClause_eq]
  rw [weightLoopSt_eq]
  dsimp only
  simp only [processRow]
  split <;> rfl

theorem foldl_range_getD (f : (CNFT × List HMap) → PreproRow → CNFT × List HMap)
    (rows : List PreproRow) :
    ∀ acc : CNFT × List HMap,
      (List.range rows.length).foldl (fun a i => f a (rows.getD i default)) acc =
        rows.foldl f acc := by
  induction rows with
  | nil => intro acc; rfl
  | cons r rest ih =>
    intro acc
    rw [List.length_cons, List.range_succ_eq_map, List.foldl_cons, List.foldl_map]
    simp only [List.getD_cons_zero, List.getD_cons_succ]
    exact ih (f acc r)

theorem foldl_rowStepSt (top : Nat) (s : PreproState) (L : List Nat) :
    ∀ acc : CNFT × List HMap,
      L.foldl (rowStepSt top) (acc, s) =
        (L.foldl (fun a i => processRow top s.nObj a (s.clauses.getD i default)) acc, s) := by
  induction L with
  | nil => intro acc; rfl
  | cons i L2 ih =>
    intro acc
    rw [List.foldl_cons, rowStepSt_eq, ih, List.foldl_cons]

/-- The stateful extractor computes the pure extraction and leaves the engine
state untouched. -/
theorem preproInstanceSt_eq (s : PreproState) :
    preproInstanceSt s = (preproInstance s, s) := by
  unfold preproInstanceSt getNPreproClauses getTopWeight
  simp only
  rw [foldl_rowStepSt, foldl_range_getD]
  rfl

theorem objMapOf_resizeTo (l : List HMap) (n j : Nat) (h : l.length < n) :
    objMapOf (resizeTo l n) j = objMapOf l j := by
  unfold resizeTo objMapOf
  rw [if_pos h]
  rcases Nat.lt_or_ge j l.length with hj | hj
  · rw [List.getD_append _ _ _ _ hj]
  · rw [List.getD_eq_default _ _ hj, List.getD_append_right _ _ _ _ hj]
    rcases Nat.lt_or_ge (j - l.length) (n - l.length) with hj2 | hj2
    · rw [List.getD_eq_getElem?_getD, List.getElem?_replicate_of_lt hj2]
      rfl
    · rw [List.getD_eq_default _ _ (by simpa using hj2)]

theorem objMapOf_set (l : List HMap) (o : Nat) (x : HMap) (ho : o < l.length)
    (j : Nat) :
    objMapOf (l.set o x) j = if j = o then x else objMapOf l j := by
  unfold objMapOf
  by_cases hj : j = o
  · subst hj
    rw [if_pos rfl, List.getD_eq_getElem?_getD, List.getElem?_set_self ho]
    rfl
  · rw [if_neg hj, List.getD_eq_getElem?_getD,
      List.getElem?_set_ne (fun hh => hj hh.symm), ← List.getD_eq_getElem?_getD]

theorem weightStep_fst (top : Nat) (r : PreproRow) (clause : ClauseT)
    (p : Bool × List HMap) (o : Nat) :
    (weightStep top r clause p o).1 = (p.1 && (rowWeight r o == top)) := by
  by_cases hw : rowWeight r o = top <;> simp [weightStep, hw]

theorem weightStep_objMap (top : Nat) (r : PreproRow) (clause : ClauseT)
    (p : Bool × List HMap) (o j : Nat) (k : ClauseT) :
    objMapOf (weightStep top r clause p o).2 j k =
      if j = o ∧ rowWeight r o ≠ top then
        (if k = clause then some (rowWeight r o) else objMapOf p.2 j k)
      else objMapOf p.2 j k := by
  by_cases hw : rowWeight r o = top
  · have hstep : weightStep top r clause p o = p := by
      simp [weightStep, hw]
    rw [hstep, if_neg (by rintro ⟨_, hne⟩; exact hne hw)]
  · have hlen : o < (if p.2.length < o + 1 then resizeTo p.2 (o + 1) else p.2).length := by
      by_cases hl : p.2.length < o + 1
      · rw [if_pos hl]
        simp only [resizeTo, if_pos hl, List.length_append, List.length_replicate]
        omega
      · rw [if_neg hl]
        omega
    have hpres : ∀ i,
        objMapOf (if p.2.length < o + 1 then resizeTo p.2 (o + 1) else p.2) i =
          objMapOf p.2 i := by
      intro i
      by_cases hl : p.2.length < o + 1
      · rw [if_pos hl, objMapOf_resizeTo _ _ _ hl]
      · rw [if_neg hl]
    have hstep : weightStep top r clause p o =
        (false,
          (if p.2.length < o + 1 then resizeTo p.2 (o + 1) else p.2).set o
            (hmInsert
              (objMapOf (if p.2.length < o + 1 then resizeTo p.2 (o + 1) else p.2) o)
              clause (rowWeight r o))) := by
      simp [weightStep, hw, objMapOf]
    rw [hstep]
    dsimp only
    have hset :=
      objMapOf_set (if p.2.length < o + 1 then resizeTo p.2 (o + 1) else p.2) o
        (hmInsert
          (objMapOf (if p.2.length < o + 1 then resizeTo p.2 (o + 1) else p.2) o)
          clause (rowWeight r o)) hlen j
    by_cases hj : j = o
    · subst hj
      rw [hset]
      by_cases hk : k = clause
      · simp [hmInsert, hk, hw]
      · simp [hmInsert, hk, hw, hpres]
    · rw [hset]
      simp [hj, hpres]

theorem weightLoop_fst (top : Nat) (r : PreproRow) (clause : ClauseT)
    (L : List Nat) :
    ∀ p : Bool × List HMap,
      (L.foldl (weightStep top r clause) p).1 =
        (p.1 && L.all (fun obj => rowWeight r obj == top)) := by
  induction L with
  | nil => intro p; simp
  | cons o L2 ih =>
    intro p
    rw [List.foldl_cons, ih, weightStep_fst]
    simp [Bool.and_assoc]

theorem weightLoop_objMap (top : Nat) (r : PreproRow) (clause : ClauseT)
    (L : List Nat) :
    L.Nodup → ∀ (p : Bool × List HMap) (obj : Nat) (k : ClauseT),
      objMapOf ((L.foldl (weightStep top r clause) p).2) obj k =
        if obj ∈ L ∧ rowWeight r obj ≠ top then
          (if k = clause then some (rowWeight r obj) else objMapOf p.2 obj k)
        else objMapOf p.2 obj k := by
  induction L with
  | nil => intro _ p obj k; simp
  | cons o L2 ih =>
    intro hnd p obj k
    rw [List.nodup_cons] at hnd
    obtain ⟨ho, h2⟩ := hnd
    rw [List.foldl_cons, ih h2]
    simp only [weightStep_objMap]
    by_cases hobj : obj = o
    · subst hobj
      by_cases hwt : rowWeight r obj = top
      · simp [ho, hwt]
      · by_cases hk : k = clause
        · simp [ho, hwt, hk]
        · simp [ho, hwt, hk]
    · by_cases hmem : obj ∈ L2
      · by_cases hwt : rowWeight r obj = top
        · simp [hobj, hmem, hwt]
        · by_cases hk : k = clause
          · simp [hobj, hmem, hwt, hk]
          · simp [hobj, hmem, hwt, hk]
      · simp [hobj, hmem]

theorem processRow_fst (top nObj : Nat) (acc : CNFT × List HMap) (r : PreproRow) :
    (processRow top nObj acc r).1 =
      if allTopB top nObj r then acc.1 ++ [renderRow r] else acc.1 := by
  unfold processRow
  simp only [weightLoop_fst, Bool.true_and]
  unfold allTopB
  split <;> rfl

theorem processRow_snd (top nObj : Nat) (acc : CNFT × List HMap) (r : PreproRow) :
    (processRow top nObj acc r).2 =
      ((List.range nObj).foldl (weightStep top r (renderRow r)) (true, acc.2)).2 := by
  simp only [processRow]
  split <;> rfl

theorem processRow_objMap (top nObj : Nat) (acc : CNFT × List HMap) (r : PreproRow)
    (obj : Nat) (k : ClauseT) :
    objMapOf (processRow top nObj acc r).2 obj k =
      if obj < nObj ∧ rowWeight r obj ≠ top ∧ k = renderRow r then
        some (rowWeight r obj)
      else objMapOf acc.2 obj k := by
  rw [processRow_snd, weightLoop_objMap _ _ _ _ (List.nodup_range nObj)]
  simp only [List.mem_range]
  by_cases h1 : obj < nObj <;> by_cases h2 : rowWeight r obj = top <;>
    by_cases h3 : k = renderRow r <;> simp [h1, h2, h3]

theorem foldl_processRow_fst (top nObj : Nat) (rows : List PreproRow) :
    ∀ acc : CNFT × List HMap,
      (rows.foldl (processRow top nObj) acc).1 =
        acc.1 ++ (rows.filter (allTopB top nObj)).map renderRow := by
  induction rows with
  | nil => intro acc; simp
  | cons r rest ih =>
    intro acc
    rw [List.foldl_cons, ih, List.filter_cons]
    by_cases h : allTopB top nObj r = true
    · simp [processRow_fst, h]
    · simp [processRow_fst, h]

theorem foldl_processRow_objMap_pres (top nObj : Nat) (rows : List PreproRow)
    (obj : Nat) (k : ClauseT) :
    ∀ acc : CNFT × List HMap, (∀ r ∈ rows, renderRow r ≠ k) →
      objMapOf (rows.foldl (processRow top nObj) acc).2 obj k =
        objMapOf acc.2 obj k := by
  induction rows with
  | nil => intro acc _; rfl
  | cons r rest ih =>
    intro acc hk
    rw [List.foldl_cons, ih _ (fun x hx => hk x (List.mem_cons_of_mem _ hx)),
      processRow_objMap,
      if_neg (by
        rintro ⟨_, _, hkr⟩
        exact hk r (List.mem_cons_self r rest) hkr.symm)]

theorem preproInstance_objMap_key (s : PreproState)
    (hnd : (s.clauses.map renderRow).Nodup) (r : PreproRow) (hr : r ∈ s.clauses)
    (obj : Nat) :
    objMapOf (preproInstance s).2 obj (renderRow r) =
      if obj < s.nObj ∧ rowWeight r obj ≠ s.top then some (rowWeight r obj)
      else none := by
  obtain ⟨l1, l2, heq⟩ := List.append_of_mem hr
  have hmap : (l1.map renderRow ++ renderRow r :: l2.map renderRow).Nodup := by
    rw [← List.map_cons, ← List.map_append, ← heq]
    exact hnd
  rw [List.nodup_append] at hmap
  obtain ⟨hn1, hn2, hdisj⟩ := hmap
  rw [List.nodup_cons] at hn2
  obtain ⟨hr2, _⟩ := hn2
  have h1 : ∀ x ∈ l1, renderRow x ≠ renderRow r := by
    intro x hx heq2
    exact (hdisj (List.mem_map_of_mem _ hx)) (by rw [heq2]; exact List.mem_cons_self _ _)
  have h2 : ∀ x ∈ l2, renderRow x ≠ renderRow r := by
    intro x hx heq2
    exact hr2 (by rw [← heq2]; exact List.mem_map_of_mem _ hx)
  unfold preproInstance
  rw [heq, List.foldl_append, List.foldl_cons]
  rw [foldl_processRow_objMap_pres _ _ _ _ _ _ h2, processRow_objMap,
    foldl_processRow_objMap_pres _ _ _ _ _ _ h1]
  by_cases hcond : obj < s.nObj ∧ rowWeight r obj ≠ s.top
  · rw [if_pos ⟨hcond.1, hcond.2, rfl⟩, if_pos hcond]
  · rw [if_neg (by rintro ⟨a, b, _⟩; exact hcond ⟨a, b⟩), if_neg hcond]
    rfl

/-! ## Claim theorems: codec, construction, options -/

/-- C6: for every literal, encoding to the signed non-zero integer form and
decoding yields the original literal back; the encoding never produces `0`;
and decoding `0` fails rather than yielding a literal. -/
theorem lit_codec_round_trip :
    (∀ l : LitT, fromIpasir (toIpasir l) = some l ∧ toIpasir l ≠ 0) ∧
      fromIpasir 0 = none := by
  refine ⟨?_, rfl⟩
  rintro ⟨v, b⟩
  have hpos : ((v : Int) + 1) ≠ 0 := by omega
  have hneg : (-((v : Int) + 1)) ≠ 0 := by omega
  cases b with
  | false =>
    have ht : toIpasir ⟨v, false⟩ = (v : Int) + 1 := by simp [toIpasir]
    refine ⟨?_, by rw [ht]; exact hpos⟩
    rw [ht]
    simp only [fromIpasir, if_neg hpos]
    have h2 : ((v : Int) + 1).natAbs - 1 = v := by omega
    have h3 : decide ((v : Int) + 1 < 0) = false := by
      rw [decide_eq_false_iff_not]
      omega
    rw [h2, h3]
  | true =>
    have ht : toIpasir ⟨v, true⟩ = -((v : Int) + 1) := by simp [toIpasir]
    refine ⟨?_, by rw [ht]; exact hneg⟩
    rw [ht]
    simp only [fromIpasir, if_neg hneg]
    have h2 : (-((v : Int) + 1)).natAbs - 1 = v := by omega
    have h3 : decide (-((v : Int) + 1) < 0) = true := by
      rw [decide_eq_true_iff]
      omega
    rw [h2, h3]

/-- C3: the top weight computed by `MaxPre::new` and passed to the engine's
`cmaxpre_init_start` open call equals `1 +` the sum of all weights over all
objectives and all soft clauses; with zero soft-clause objectives it is `1`. -/
theorem top_weight_open_call (hards : CNFT) (softs : List (List (ClauseT × Nat)))
    (inproc : Bool) :
    (initTrace hards softs inproc).head? =
        some (InitEvent.start (1 + totalWeight softs) inproc) ∧
      (initTrace hards [] inproc).head? = some (InitEvent.start 1 inproc) := by
  have base : ∀ (ss : List (List (ClauseT × Nat))),
      (initTrace hards ss inproc).head? =
        some (InitEvent.start (topWeight ss) inproc) := by
    intro ss
    unfold initTrace
    rw [show ss.enum = ss.enumFrom 0 from rfl, foldl_objectives, foldl_emitClause]
    simp
  refine ⟨?_, ?_⟩
  · rw [base softs, topWeight_eq]
  · rw [base []]
    rfl

/-- C5: `MaxPre::new` streams, after the open call: each hard clause as its
literals followed by the `0` terminator; then for each objective index `i` in
order and each (clause, weight) pair of that objective, exactly `i` zero-weight
placeholders, the real weight for objective `i`, the clause's literals and the
`0` terminator; and finally exactly one finalize call, at the very end. -/
theorem init_stream_shape (hards : CNFT) (softs : List (List (ClauseT × Nat)))
    (inproc : Bool) :
    initTrace hards softs inproc =
        InitEvent.start (topWeight softs) inproc ::
          (hards.flatMap hardEvents
            ++ softs.enum.flatMap (fun p => p.2.flatMap (softEvents p.1))
            ++ [InitEvent.finalizeEv]) ∧
      (initTrace hards softs inproc).count InitEvent.finalizeEv = 1 := by
  have hshape :
      initTrace hards softs inproc =
        InitEvent.start (topWeight softs) inproc ::
          (hards.flatMap hardEvents
            ++ softs.enum.flatMap (fun p => p.2.flatMap (softEvents p.1))
            ++ [InitEvent.finalizeEv]) := by
    unfold initTrace
    rw [show softs.enum = softs.enumFrom 0 from rfl, foldl_objectives, foldl_emitClause]
    simp
  refine ⟨hshape, ?_⟩
  rw [hshape]
  have hhard : ∀ e ∈ hards.flatMap hardEvents, e ≠ InitEvent.finalizeEv := by
    intro e he
    rw [List.mem_flatMap] at he
    obtain ⟨cl, _, he⟩ := he
    unfold hardEvents at he
    rw [List.mem_append] at he
    rcases he with he | he
    · rw [List.mem_map] at he
      obtain ⟨l, _, rfl⟩ := he
      intro h
      exact InitEvent.noConfusion h
    · rw [List.mem_singleton] at he
      subst he
      intro h
      exact InitEvent.noConfusion h
  have hsoft : ∀ e ∈ softs.enum.flatMap (fun p => p.2.flatMap (softEvents p.1)),
      e ≠ InitEvent.finalizeEv := by
    intro e he
    rw [List.mem_flatMap] at he
    obtain ⟨p, _, he⟩ := he
    rw [List.mem_flatMap] at he
    obtain ⟨cw, _, he⟩ := he
    unfold softEvents at he
    simp only [List.mem_append, List.mem_replicate, List.mem_singleton,
      List.mem_map] at he
    rcases he with (⟨_, he⟩ | he) | (⟨l, _, he⟩ | he) <;>
      (subst he; intro h; exact InitEvent.noConfusion h)
  rw [List.count_cons_of_ne (by intro h; exact InitEvent.noConfusion h)]
  rw [List.count_append, List.count_append]
  rw [List.count_eq_zero.2 (fun h => hhard _ h rfl),
    List.count_eq_zero.2 (fun h => hsoft _ h rfl)]
  rfl

/-- C4: the extractor classifies a table row as hard exactly when its weight
under every one of the session's objectives equals the top weight; for each
objective index where its weight differs from the top weight, the rendered
clause is recorded in that objective's soft map with exactly that weight; and
no clause is both hard and recorded soft under the same objective index.
Stated for tables whose rendered clauses are pairwise distinct. -/
theorem prepro_instance_classification (s : PreproState)
    (hnd : (s.clauses.map renderRow).Nodup) :
    ∀ r ∈ s.clauses,
      ((renderRow r ∈ (preproInstance s).1) ↔
        ∀ obj < s.nObj, rowWeight r obj = s.top) ∧
      (∀ obj < s.nObj,
        (objMapOf (preproInstance s).2 obj (renderRow r) = some (rowWeight r obj) ↔
          rowWeight r obj ≠ s.top)) ∧
      (∀ obj < s.nObj,
        ¬((renderRow r ∈ (preproInstance s).1) ∧
          objMapOf (preproInstance s).2 obj (renderRow r) ≠ none)) := by
  intro r hr
  have hards : (preproInstance s).1 =
      (s.clauses.filter (allTopB s.top s.nObj)).map renderRow := by
    unfold preproInstance
    rw [foldl_processRow_fst]
    rfl
  have hmem : renderRow r ∈ (preproInstance s).1 ↔
      (∀ obj < s.nObj, rowWeight r obj = s.top) := by
    rw [hards]
    constructor
    · intro hin
      rw [List.mem_map] at hin
      obtain ⟨x, hx, hxr⟩ := hin
      rw [List.mem_filter] at hx
      obtain ⟨hxmem, hxtop⟩ := hx
      have hxeq : x = r := List.inj_on_of_nodup_map hnd hxmem hr hxr
      subst hxeq
      intro obj hobj
      have := List.all_eq_true.mp hxtop obj (List.mem_range.mpr hobj)
      rwa [beq_iff_eq] at this
    · intro htop
      rw [List.mem_map]
      refine ⟨r, List.mem_filter.mpr ⟨hr, ?_⟩, rfl⟩
      rw [allTopB, List.all_eq_true]
      intro x hx
      rw [beq_iff_eq]
      exact htop x (List.mem_range.mp hx)
  have hkey := preproInstance_objMap_key s hnd r hr
  refine ⟨hmem, ?_, ?_⟩
  · intro obj hobj
    rw [hkey obj]
    by_cases hw : rowWeight r obj = s.top
    · rw [if_neg (by rintro ⟨_, hne⟩; exact hne hw)]
      simp [hw]
    · rw [if_pos ⟨hobj, hw⟩]
      simp [hw]
  · intro obj hobj
    rintro ⟨hin, hne⟩
    have htop := hmem.mp hin obj hobj
    rw [hkey obj, if_neg (by rintro ⟨_, hne2⟩; exact hne2 htop)] at hne
    exact hne rfl

theorem prepro_instance_classification_witness :
    (sampleExtractionState.clauses.map renderRow).Nodup ∧
      ∀ r ∈ sampleExtractionState.clauses,
        ((renderRow r ∈ (preproInstance sampleExtractionState).1) ↔
          ∀ obj < sampleExtractionState.nObj,
            rowWeight r obj = sampleExtractionState.top) ∧
        (∀ obj < sampleExtractionState.nObj,
          (objMapOf (preproInstance sampleExtractionState).2 obj (renderRow r) =
              some (rowWeight r obj) ↔
            rowWeight r obj ≠ sampleExtractionState.top)) ∧
        (∀ obj < sampleExtractionState.nObj,
          ¬((renderRow r ∈ (preproInstance sampleExtractionState).1) ∧
            objMapOf (preproInstance sampleExtractionState).2 obj (renderRow r) ≠
              none)) :=
  ⟨by decide, prepro_instance_classification sampleExtractionState (by decide)⟩

/-- C7: the extraction makes only read-only engine calls, so running
`prepro_instance` twice with no intervening mutating operation leaves the
engine state unchanged and returns identical hard-clause and per-objective
soft-clause tables both times. -/
theorem prepro_instance_idempotent (s : PreproState) :
    (preproInstanceSt s).1 = preproInstance s ∧
      (preproInstanceSt s).2 = s ∧
      (preproInstanceSt (preproInstanceSt s).2).1 = (preproInstanceSt s).1 ∧
      (preproInstanceSt (preproInstanceSt s).2).2 = (preproInstanceSt s).2 := by
  simp [preproInstanceSt_eq]

theorem weightLoop_snd_top (top : Nat) (r : PreproRow) (clause : ClauseT)
    (L : List Nat) :
    ∀ p : Bool × List HMap, (∀ o ∈ L, rowWeight r o = top) →
      (L.foldl (weightStep top r clause) p).2 = p.2 := by
  induction L with
  | nil => intro p _; rfl
  | cons o L2 ih =>
    intro p hall
    rw [List.foldl_cons,
      show weightStep top r clause p o = p from by
        simp [weightStep, hall o (List.mem_cons_self o L2)]]
    exact ih p (fun x hx => hall x (List.mem_cons_of_mem _ hx))

theorem foldl_processRow_snd_top (top nObj : Nat) (rows : List PreproRow) :
    ∀ acc : CNFT × List HMap,
      (∀ r ∈ rows, ∀ obj < nObj, rowWeight r obj = top) →
        (rows.foldl (processRow top nObj) acc).2 = acc.2 := by
  induction rows with
  | nil => intro acc _; rfl
  | cons r rest ih =>
    intro acc hall
    rw [List.foldl_cons, ih _ (fun x hx => hall x (List.mem_cons_of_mem _ hx))]
    rw [processRow_snd,
      weightLoop_snd_top _ _ _ _ _ (fun o ho =>
        hall r (List.mem_cons_self r rest) o (List.mem_range.mp ho))]

/-- C10: whenever extraction yields an empty objective list — in particular in
a single-objective session where every clause's weight under objective 0
equals the top weight, so no soft clause is ever recorded —
`PreproOpt::prepro_instance` reaches its `panic!()` branch (modelled `none`)
instead of returning an instance with an empty objective. -/
theorem prepro_opt_panics_on_empty (s : PreproState) :
    ((preproInstance s).2 = [] → preproOptInstance s = none) ∧
      (s.nObj = 1 → (∀ r ∈ s.clauses, rowWeight r 0 = s.top) →
        (preproInstance s).2 = []) := by
  constructor
  · intro h
    unfold preproOptInstance
    rw [h]
    rfl
  · intro h1 hall
    unfold preproInstance
    rw [foldl_processRow_snd_top _ _ _ _ (fun r hr obj hobj => by
      have h0 : obj = 0 := by omega
      rw [h0]
      exact hall r hr)]

theorem prepro_opt_panics_on_empty_witness :
    (preproInstance sampleAllHardState).2 = [] ∧
      preproOptInstance sampleAllHardState = none := by
  have h := (prepro_opt_panics_on_empty sampleAllHardState).2 rfl (by decide)
  exact ⟨h, (prepro_opt_panics_on_empty sampleAllHardState).1 h⟩

/-- C8: `add_var` fails exactly when the engine's variable-allocation call
returns zero, and otherwise returns the newly allocated variable decoded from
the engine's non-zero result. -/
theorem add_var_spec (v : Int) :
    (addVar v = none ↔ v = 0) ∧
      (v ≠ 0 → ∃ l, fromIpasir v = some l ∧ addVar v = some l.var) := by
  constructor
  · constructor
    · intro h
      by_contra hv
      rw [addVar, if_neg hv] at h
      simp [fromIpasir, hv] at h
    · intro h
      rw [addVar, if_pos h]
  · intro hv
    refine ⟨⟨v.natAbs - 1, decide (v < 0)⟩, ?_, ?_⟩
    · rw [fromIpasir, if_neg hv]
    · rw [addVar, if_neg hv, fromIpasir, if_neg hv]
      rfl

theorem add_var_spec_witness :
    (addVar 0 = none) ∧ (∃ l, fromIpasir 3 = some l ∧ addVar 3 = some l.var) :=
  ⟨(add_var_spec 0).1.mpr rfl, (add_var_spec 3).2 (by decide)⟩

/-- C1 failing-input evaluation: with the engine reporting one original
variable (`max_orig_var` = variable index 0, protocol variable 1) and input
assignment `{1}`, the half-open range `1..1` is empty and `reconstruct`
returns the empty assignment — not `{1}` as the claim requires.  The maximum
original variable is always excluded by the range's exclusive upper bound. -/
theorem reconstruct_drops_max_var :
    maxOrigVar ⟨1, fun _ => 1⟩ = some 0 ∧
      reconstruct ⟨1, fun _ => 1⟩ [⟨0, false⟩] = some [] := by
  constructor <;> rfl

/-- C9: `signature` aborts (panics) exactly when the engine's
identity/signature string does not decode as valid text, and when it is valid
text it is returned unchanged, never truncated. -/
theorem signature_spec (raw : List Nat) :
    (utf8Valid raw = false → signature raw = none) ∧
      (utf8Valid raw = true → signature raw = some raw) := by
  constructor
  · intro h
    simp [signature, h]
  · intro h
    simp [signature, h]

theorem signature_spec_witness :
    signature [0xFF] = none ∧ signature [104, 105] = some [104, 105] :=
  ⟨(signature_spec [0xFF]).1 (by decide), (signature_spec [104, 105]).2 (by decide)⟩

/-- C2 counterexample evaluation: `set_options` with only
`bve_gate_extraction = Some(true)` makes no engine call at all, while
`bve_sort_max_first = Some(true)` alone makes two engine calls, the first of
them to the gate-extraction setter.  The claim requires one isolated
gate-extraction call in the first case and a single sort-order call in the
second. -/
theorem set_options_gate_extraction_dropped :
    setOptionsTrace { bve_gate_extraction := some true } = [] ∧
      setOptionsTrace { bve_sort_max_first := some true } =
        [OptEvent.setBveGateExtraction true, OptEvent.setBveSortMaxFirst true] := by
  constructor <;> rfl

end Maxpre
